import Mathlib

/-!
# Verification of the goup version-state engine

A shallow embedding of the core of `goup` (a Go toolchain version manager,
`src/main.rs` and `src/version.rs`) together with proofs about its
operations.  Machine integers (`u32`, `u64`) are modelled as `Nat` with
explicit `< 2^32` bounds where overflow matters; filesystem and network
effects are modelled as explicit outcome parameters; every operation that
does `load → mutate → store` on the persisted `versions.json` record is
modelled as a pure function from the loaded record (plus effect outcomes)
to the persisted record and a result.
-/

/-- `GoVersion` (src/version.rs lines 22-28): a semantic version tag in Go
format.  The Rust fields are `u32`; modelled as `Nat`, with the `u32`
bound made explicit in the theorems where it matters. -/
structure GoVersion where
  major : Nat
  minor : Nat
  patch : Nat
deriving DecidableEq, Repr

/-- Boolean lexicographic strict order on version triples, matching the
derived `Ord` on the Rust struct (field order `major`, `minor`, `patch`). -/
def vltB (a b : GoVersion) : Bool :=
  decide (a.major < b.major) ||
    (decide (a.major = b.major) &&
      (decide (a.minor < b.minor) ||
        (decide (a.minor = b.minor) && decide (a.patch < b.patch))))

/-- Boolean lexicographic order (`≤`) on version triples. -/
def vleB (a b : GoVersion) : Bool := vltB a b || decide (a = b)

/-- The derived `Ord`/`PartialOrd` order on `GoVersion` as a relation:
lexicographic on `(major, minor, patch)`.  `BTreeSet`/`BTreeMap` iterate
ascending in this order. -/
def vle (a b : GoVersion) : Prop := vleB a b = true

instance : DecidableRel vle := fun a b => by unfold vle; infer_instance

lemma vle_iff (a b : GoVersion) :
    vle a b ↔ (a.major < b.major ∨ (a.major = b.major ∧
      (a.minor < b.minor ∨ (a.minor = b.minor ∧ a.patch ≤ b.patch)))) := by
  obtain ⟨a1, a2, a3⟩ := a
  obtain ⟨b1, b2, b3⟩ := b
  simp only [vle, vleB, vltB, Bool.or_eq_true, Bool.and_eq_true, decide_eq_true_eq,
    GoVersion.mk.injEq]
  constructor
  · rintro (h | h) <;> omega
  · intro h
    omega

instance : IsTotal GoVersion vle :=
  ⟨fun a b => by rw [vle_iff, vle_iff]; omega⟩

instance : IsTrans GoVersion vle :=
  ⟨fun a b c hab hbc => by
    rw [vle_iff] at hab hbc ⊢
    omega⟩

instance : IsAntisymm GoVersion vle :=
  ⟨fun a b hab hba => by
    rw [vle_iff] at hab hba
    obtain ⟨a1, a2, a3⟩ := a
    obtain ⟨b1, b2, b3⟩ := b
    simp only [GoVersion.mk.injEq]
    simp only at hab hba
    omega⟩

/-! ## The version-string parser (src/version.rs lines 19-20 and 66-88)

The Rust parser applies the regex `go(\d+)\.(\d+)(?:\.(\d+))?` to the
input and converts each captured group with `parse::<u32>().unwrap()`.
We model the regex search directly on `List Char`: leftmost match, and
within a match maximal (greedy) digit runs — which agrees with the
backtracking engine because every `\d+` here is followed by a non-digit
(`\.`) or by the end of the pattern.  `\d` is modelled as the ASCII
digits `'0'..'9'`; the Rust regex class is Unicode-aware, but non-ASCII
digits could only add further `unwrap` panics of the kind already
exhibited for claim C8, and never occur in canonical version strings. -/

/-- ASCII decimal digit test, modelling `\d` of the parsing regex. -/
def isDigitCh (c : Char) : Bool := decide ('0' ≤ c) && decide (c ≤ '9')

/-- The three captured groups of one successful regex match: the digit
runs for major, minor, and (optionally) patch. -/
structure RawCaps where
  d1 : List Char
  d2 : List Char
  d3 : Option (List Char)
deriving DecidableEq, Repr

/-- The optional `(?:\.(\d+))?` tail of the pattern: greedy, so it
participates exactly when a `'.'` followed by at least one digit is
present at the current position. -/
def matchOptPatch (r : List Char) : Option (List Char) :=
  match r with
  | dot :: r4 =>
    if dot = '.' then
      let d3 := r4.takeWhile isDigitCh
      if d3.isEmpty then none else some d3
    else none
  | [] => none

/-- Matching `(\d+)\.(\d+)(?:\.(\d+))?` against the characters that
follow a literal `go`. -/
def matchGo (rest : List Char) : Option RawCaps :=
  let d1 := rest.takeWhile isDigitCh
  if d1.isEmpty then none
  else
    match rest.dropWhile isDigitCh with
    | dot :: r2 =>
      if dot = '.' then
        let d2 := r2.takeWhile isDigitCh
        if d2.isEmpty then none
        else some ⟨d1, d2, matchOptPatch (r2.dropWhile isDigitCh)⟩
      else none
    | [] => none

/-- One attempt of the full pattern at the current position: a literal
`go` followed by the digit groups. -/
def matchAt (l : List Char) : Option RawCaps :=
  match l with
  | g :: o :: rest => if g = 'g' ∧ o = 'o' then matchGo rest else none
  | _ => none

/-- `Regex::captures`: the leftmost position at which the pattern
matches, scanning start positions left to right. -/
def findMatch : List Char → Option RawCaps
  | [] => none
  | c :: rest =>
    match matchAt (c :: rest) with
    | some m => some m
    | none => findMatch rest

/-- Big-endian decimal value of a digit run, exactly the accumulation
performed by `u32::from_str` (before its overflow check). -/
def charsVal (l : List Char) : Nat :=
  l.foldl (fun acc c => acc * 10 + (c.toNat - 48)) 0

/-- `str::parse::<u32>` on a pure digit run: succeeds iff the value fits
in 32 bits, otherwise `Err` (which the Rust caller `unwrap`s — a panic). -/
def parseU32 (l : List Char) : Option Nat :=
  if charsVal l < 4294967296 then some (charsVal l) else none

/-- Outcome of `GoVersion::from_str` (src/version.rs lines 66-88):
either a parsed version, the `Err("unable to parse go version")` when
the regex finds no match, or a process abort (`panic`) when a captured
digit group does not fit in `u32` and `parse::<u32>().unwrap()` panics. -/
inductive ParseResult where
  | ok (v : GoVersion)
  | err
  | panic
deriving DecidableEq, Repr

/-- `GoVersion::from_str` (src/version.rs lines 66-88).  A missing third
capture defaults the patch to 0 (`unwrap_or_default`). -/
def goVersionFromStr (l : List Char) : ParseResult :=
  match findMatch l with
  | none => .err
  | some caps =>
    match parseU32 caps.d1 with
    | none => .panic
    | some a =>
      match parseU32 caps.d2 with
      | none => .panic
      | some b =>
        match caps.d3 with
        | none => .ok ⟨a, b, 0⟩
        | some d3 =>
          match parseU32 d3 with
          | none => .panic
          | some c => .ok ⟨a, b, c⟩

/-- Decimal digit to character, as produced by Rust's `u32` `Display`.
Digits produced by `Nat.digits 10` are always `< 10`; the catch-all arm
is irrelevant padding for totality. -/
def digitToChar (d : Nat) : Char :=
  match d with
  | 0 => '0' | 1 => '1' | 2 => '2' | 3 => '3' | 4 => '4'
  | 5 => '5' | 6 => '6' | 7 => '7' | 8 => '8' | _ => '9'

/-- Decimal rendering of a natural number, as Rust's `{}` formatting of a
`u32`: `"0"` for zero, otherwise the most-significant-first digits. -/
def natChars (n : Nat) : List Char :=
  if n = 0 then ['0'] else ((Nat.digits 10 n).reverse.map digitToChar)

/-- `Display for GoVersion` (src/version.rs lines 90-94):
`format!("go{}.{}.{}", major, minor, patch)`. -/
def formatChars (v : GoVersion) : List Char :=
  'g' :: 'o' :: (natChars v.major ++ '.' :: (natChars v.minor ++ '.' :: natChars v.patch))

/-! ## The persisted state record and the engine operations

Every mutating operation in the source performs
`VersionFile::load()` → in-memory mutation → `VersionFile::store()`.
We model each operation as a pure function taking the loaded record
(and explicit outcomes for its filesystem / network effects) and
returning the record as persisted after the call — equal to the input
record whenever the operation fails before its `store()` — together
with the operation's result.  `store()` itself is modelled as always
succeeding; no claim concerns a failing state write. -/

/-- `VersionFile` (src/version.rs lines 96-101): the persisted JSON
state record.  The Rust `BTreeSet`s are finite sets of versions;
modelled as `Finset`. -/
structure VersionFile where
  enabled : Option GoVersion
  installed : Finset GoVersion
  pinned : Finset GoVersion
deriving DecidableEq

/-- `Default for VersionFile`: no enabled version, empty sets. -/
instance : Inhabited VersionFile := ⟨⟨none, ∅, ∅⟩⟩

/-- The error taxonomy.  The source reports errors as `anyhow` message
strings; each constructor corresponds to one distinct message site. -/
inductive GoupError where
  | notInstalled   -- "Version {} is not installed"
  | pinned         -- "Version {} is pinned"
  | notAvailable   -- "Version {} not available for download"
  | catalogNet     -- "Unable to query go.dev for current go versions"
  | catalogParse   -- "Unable to parse version info from remote"
  | catalogEmpty   -- "No versions found for target ({}, {})"
  | noVersions     -- "Found no available go versions"
  | installNet     -- "Failed to get version {} from go.dev"
  | installUnpack  -- "Failed to unpack downloaded archive"
  | parseStateFile -- "Unable to parse version file"
  | ioErr          -- any other I/O error propagated via anyhow
deriving DecidableEq, Repr

/-- Outcome of `fs::read_to_string` on the state file. -/
inductive ReadOutcome where
  | content (s : String)
  | notFound
  | otherErr
deriving DecidableEq

/-- `VersionFile::load` (src/version.rs lines 104-110): file-not-found
yields the zero-value record; any other read error is fatal; file
contents go through the JSON deserializer, modelled by the abstract
`parse` parameter (serde_json is an external collaborator), whose
failure is fatal. -/
def loadVersionFile (read : ReadOutcome) (parse : String → Option VersionFile) :
    Except GoupError VersionFile :=
  match read with
  | .content s =>
    match parse s with
    | some vf => .ok vf
    | none => .error .parseStateFile
  | .notFound => .ok ⟨none, ∅, ∅⟩
  | .otherErr => .error .ioErr

/-- `FileInfo` (src/version.rs lines 126-135): the per-platform download
metadata read from the catalog. -/
structure FileInfo where
  filename : String
  os : String
  arch : String
  size : Nat
  kind : String
deriving DecidableEq, Repr

/-- Outcome of the HTTP GET + JSON decode of `https://go.dev/dl/?mode=json`:
on success, the decoded release groups, each a version tag with its list
of per-platform file entries (`VersionInfo`, src/version.rs lines 119-124). -/
inductive FetchOutcome where
  | success (groups : List (GoVersion × List FileInfo))
  | netErr
  | parseErr
deriving DecidableEq

/-- The per-group file selection inside `available_go_versions`
(src/version.rs line 192): the first file entry whose arch, os, and kind
match the running platform's tags and `"archive"`. -/
def findPlatformFile (archTag osTag : String) (files : List FileInfo) : Option FileInfo :=
  files.find? (fun f => f.arch == archTag && (f.os == osTag && f.kind == "archive"))

/-- `available_go_versions` (src/version.rs lines 180-206).  The result
`BTreeMap<GoVersion, FileInfo>` is modelled as the association list
produced by the filter; upstream release groups carry distinct version
tags, and no claim depends on key deduplication or on iteration order.
An empty platform mapping is a hard error *inside this function*. -/
def availableGoVersions (archTag osTag : String) (fetch : FetchOutcome) :
    Except GoupError (List (GoVersion × FileInfo)) :=
  match fetch with
  | .netErr => .error .catalogNet
  | .parseErr => .error .catalogParse
  | .success groups =>
    let available := groups.filterMap
      (fun g => (findPlatformFile archTag osTag g.2).map (fun f => (g.1, f)))
    if available.isEmpty then .error .catalogEmpty else .ok available

/-- `BTreeMap::get`: exact-key lookup in the availability mapping. -/
def mapGet (l : List (GoVersion × FileInfo)) (v : GoVersion) : Option FileInfo :=
  (l.find? (fun p => decide (p.1 = v))).map (fun p => p.2)

/-- `BTreeMap::last_key_value`: the entry with the maximal key (the map
iterates ascending; on the duplicate keys that a map cannot hold, the
later entry wins, matching map insertion). -/
def mapLast (l : List (GoVersion × FileInfo)) : Option (GoVersion × FileInfo) :=
  l.foldl (fun acc p =>
    match acc with
    | none => some p
    | some q => if vleB q.1 p.1 then some p else some q) none

/-- Observable network / unpack effects of an engine operation, in
order of occurrence. -/
inductive Effect where
  | catalogFetch
  | archiveGet (v : GoVersion)
  | unpack (v : GoVersion)
deriving DecidableEq, Repr

/-- `download_version` (src/version.rs lines 208-227): reloads the
persisted record, computes `needs_install` from `BTreeSet::insert`'s
return value, and only when the version was absent performs the archive
GET and unpack (each given an explicit success outcome) and stores the
grown record.  Returns (persisted record, result, effects). -/
def downloadVersion (persisted : VersionFile) (downloadOk unpackOk : Bool)
    (v : GoVersion) : VersionFile × Except GoupError Unit × List Effect :=
  if v ∈ persisted.installed then (persisted, .ok (), [])
  else if downloadOk = false then (persisted, .error .installNet, [.archiveGet v])
  else if unpackOk = false then (persisted, .error .installUnpack, [.archiveGet v, .unpack v])
  else ({ persisted with installed := insert v persisted.installed },
        .ok (), [.archiveGet v, .unpack v])

/-- Outcome of the `fs::remove_file` that clears the old activation
symlink inside `enable_version`: `NotFound` is tolerated, any other
error is fatal. -/
inductive RmFileOutcome where
  | ok
  | notFound
  | otherErr
deriving DecidableEq

/-- `enable_version` (src/version.rs lines 229-249): fails when the
version is not installed; removes the old symlink (`NotFound`
tolerated); creates the new symlink; only when the symlink call
succeeded sets `enabled` and stores. -/
def enableVersion (vf : VersionFile) (rmFile : RmFileOutcome) (symlinkOk : Bool)
    (v : GoVersion) : VersionFile × Except GoupError Unit :=
  if v ∈ vf.installed then
    match rmFile with
    | .otherErr => (vf, .error .ioErr)
    | _ =>
      if symlinkOk then ({ vf with enabled := some v }, .ok ())
      else (vf, .error .ioErr)
  else (vf, .error .notInstalled)

/-- `remove_version` (src/version.rs lines 251-270): `installed.remove`
returning `false` means not installed; a pinned version is refused; the
enabled slot is cleared when it names the removed version; the install
directory is deleted recursively (outcome `rmDirOk`) and only then is
the shrunken record stored. -/
def removeVersion (vf : VersionFile) (rmDirOk : Bool) (v : GoVersion) :
    VersionFile × Except GoupError Unit :=
  if v ∈ vf.installed then
    if v ∈ vf.pinned then (vf, .error .pinned)
    else
      if rmDirOk then
        ({ enabled := if vf.enabled = some v then none else vf.enabled,
           installed := vf.installed.erase v,
           pinned := vf.pinned }, .ok ())
      else (vf, .error .ioErr)
  else (vf, .error .notInstalled)

/-- `pin` (src/main.rs lines 171-180): refuses a version that is not
installed, otherwise adds it to `pinned` and stores. -/
def pin (vf : VersionFile) (v : GoVersion) : VersionFile × Except GoupError Unit :=
  if v ∈ vf.installed then ({ vf with pinned := insert v vf.pinned }, .ok ())
  else (vf, .error .notInstalled)

/-- `unpin` (src/main.rs lines 182-187): unconditionally removes the
version from `pinned` (a no-op for a non-member) and stores. -/
def unpin (vf : VersionFile) (v : GoVersion) : VersionFile × Except GoupError Unit :=
  ({ vf with pinned := vf.pinned.erase v }, .ok ())

/-- `install` (src/main.rs lines 145-159): loads the record, inserts the
version in memory, resolves the version against the catalog (failure
leaves the record unpersisted), delegates to `download_version` (which
itself reloads and possibly stores), and finally stores its own grown
record.  Returns (persisted record, result, effects). -/
def install (persisted : VersionFile) (archTag osTag : String) (fetch : FetchOutcome)
    (downloadOk unpackOk : Bool) (v : GoVersion) :
    VersionFile × Except GoupError Unit × List Effect :=
  let rf : VersionFile := { persisted with installed := insert v persisted.installed }
  match availableGoVersions archTag osTag fetch with
  | .error e => (persisted, .error e, [.catalogFetch])
  | .ok available =>
    match mapGet available v with
    | none => (persisted, .error .notAvailable, [.catalogFetch])
    | some _f =>
      let dres := downloadVersion persisted downloadOk unpackOk v
      match dres.2.1 with
      | .error e => (dres.1, .error e, .catalogFetch :: dres.2.2)
      | .ok _ => (rf, .ok (), .catalogFetch :: dres.2.2)

/-- `update` (src/main.rs lines 119-143): determines the catalog's
maximal version; if it is already installed, just enables it; otherwise
downloads then enables it. -/
def update (persisted : VersionFile) (archTag osTag : String) (fetch : FetchOutcome)
    (downloadOk unpackOk : Bool) (rmFile : RmFileOutcome) (symlinkOk : Bool) :
    VersionFile × Except GoupError Unit :=
  match availableGoVersions archTag osTag fetch with
  | .error e => (persisted, .error e)
  | .ok available =>
    match mapLast available with
    | none => (persisted, .error .noVersions)
    | some lf =>
      if lf.1 ∈ persisted.installed then
        enableVersion persisted rmFile symlinkOk lf.1
      else
        let dres := downloadVersion persisted downloadOk unpackOk lf.1
        match dres.2.1 with
        | .error e => (dres.1, .error e)
        | .ok _ => enableVersion dres.1 rmFile symlinkOk lf.1

/-- One line of `list` output (src/main.rs lines 85-110): the display
tags computed for a version (the terminal colouring is presentation
only). -/
structure ListEntry where
  isInstalled : Bool
  isAvailable : Bool
  isEnabled : Bool
  isPinned : Bool
  version : GoVersion
deriving DecidableEq

/-- `list_versions` (src/main.rs lines 75-117): loads the record,
queries the catalog (propagating its error with `?`), and tags every
version in `installed ∪ available`.  The source iterates the
`BTreeSet` union in ascending order and prints the lines reversed; the
entries are modelled in iteration (ascending) order. -/
def listVersions (vf : VersionFile) (archTag osTag : String) (fetch : FetchOutcome) :
    Except GoupError (List ListEntry) :=
  match availableGoVersions archTag osTag fetch with
  | .error e => .error e
  | .ok av =>
    let availableSet := (av.map Prod.fst).toFinset
    let union := vf.installed ∪ availableSet
    .ok ((union.sort vle).map (fun v =>
      { isInstalled := decide (v ∈ vf.installed),
        isAvailable := decide (v ∈ availableSet),
        isEnabled := decide (vf.enabled = some v),
        isPinned := decide (v ∈ vf.pinned),
        version := v }))

/-- `version_folders` (src/version.rs lines 272-285): the set of
directory-entry names under the goup root that parse as versions
(`parse::<GoVersion>().ok()` keeps successes and drops `Err`s; a name
whose matched component overflows `u32` would panic in the source — the
panic is the subject of claim C8's model and is not re-modelled here,
real on-disk directories being named by `Display` output). -/
def versionFolders (names : List (List Char)) : Finset GoVersion :=
  (names.filterMap (fun n =>
    match goVersionFromStr n with
    | .ok v => some v
    | _ => none)).toFinset

/-- The allow-list computed by `clean` (src/main.rs lines 206-211):
catalog-available versions, plus the pinned set after it has been
intersected with the disk-corrected installed set, plus the enabled
version if set. -/
def cleanAllowlist (vf : VersionFile) (folders : Finset GoVersion)
    (avKeys : Finset GoVersion) : Finset GoVersion :=
  avKeys ∪ ((vf.installed ∩ folders) ∩ vf.pinned) ∪ vf.enabled.toFinset

/-- The deletion loop of `clean` (src/main.rs lines 213-216): for each
stale version in `BTreeSet` (ascending) order, drop it from the
in-memory installed set and delete its directory; a failed directory
deletion (outcome `rmOk v = false`) aborts the whole operation. -/
def cleanLoop (rmOk : GoVersion → Bool) : List GoVersion → Finset GoVersion →
    Except GoupError (Finset GoVersion)
  | [], inst => .ok inst
  | v :: rest, inst =>
    if rmOk v then cleanLoop rmOk rest (inst.erase v) else .error .ioErr

/-- `clean` (src/main.rs lines 189-220): corrects `installed` against
the on-disk folder set, drops pins on no-longer-installed versions,
computes the allow-list, deletes every on-disk version directory outside
it while removing it from `installed`, and stores once at the end.
On success the result carries the list of versions whose directories
were deleted. -/
def clean (vf : VersionFile) (folders : Finset GoVersion) (archTag osTag : String)
    (fetch : FetchOutcome) (rmOk : GoVersion → Bool) :
    VersionFile × Except GoupError (List GoVersion) :=
  let installed1 := vf.installed ∩ folders
  let pinned1 := installed1 ∩ vf.pinned
  match availableGoVersions archTag osTag fetch with
  | .error e => (vf, .error e)
  | .ok av =>
    let allow := cleanAllowlist vf folders (av.map Prod.fst).toFinset
    let toDelete := (folders \ allow).sort vle
    match cleanLoop rmOk toDelete installed1 with
    | .error e => (vf, .error e)
    | .ok inst2 => ({ enabled := vf.enabled, installed := inst2, pinned := pinned1 },
                    .ok toDelete)

/-! ## The two state-record invariants (spec §3) -/

/-- The enabled slot, if set, names an installed version. -/
def enabledInv (vf : VersionFile) : Prop :=
  ∀ v, vf.enabled = some v → v ∈ vf.installed

/-- Every pinned version is installed. -/
def pinnedInv (vf : VersionFile) : Prop := vf.pinned ⊆ vf.installed

/-! ## Lemmas about the parser and the canonical rendering -/

lemma isDigit_digitToChar (d : Nat) : isDigitCh (digitToChar d) = true := by
  unfold digitToChar
  split <;> decide

lemma digitToChar_toNat {d : Nat} (h : d < 10) : (digitToChar d).toNat - 48 = d := by
  interval_cases d <;> decide

lemma natChars_ne_nil (n : Nat) : natChars n ≠ [] := by
  unfold natChars
  split
  · simp
  · rename_i h
    simp [Nat.digits_ne_nil_iff_ne_zero.mpr h]

lemma natChars_digits (n : Nat) : ∀ c ∈ natChars n, isDigitCh c = true := by
  intro c hc
  unfold natChars at hc
  split at hc
  · simp at hc
    subst hc
    decide
  · simp only [List.mem_map, List.mem_reverse] at hc
    obtain ⟨d, _, rfl⟩ := hc
    exact isDigit_digitToChar d

lemma takeWhile_append_not (p : Char → Bool) (ds : List Char) (x : Char) (r : List Char)
    (hds : ∀ c ∈ ds, p c = true) (hx : p x = false) :
    (ds ++ x :: r).takeWhile p = ds ∧ (ds ++ x :: r).dropWhile p = x :: r := by
  induction ds with
  | nil => simp [List.takeWhile_cons, List.dropWhile_cons, hx]
  | cons d ds ih =>
    have hd : p d = true := hds d (List.mem_cons_self _ _)
    have h2 := ih (fun c hc => hds c (List.mem_cons_of_mem _ hc))
    simp [List.takeWhile_cons, List.dropWhile_cons, hd, h2.1, h2.2]

lemma takeWhile_all (p : Char → Bool) (ds : List Char)
    (hds : ∀ c ∈ ds, p c = true) :
    ds.takeWhile p = ds ∧ ds.dropWhile p = [] := by
  induction ds with
  | nil => simp
  | cons d ds ih =>
    have hd : p d = true := hds d (List.mem_cons_self _ _)
    have h2 := ih (fun c hc => hds c (List.mem_cons_of_mem _ hc))
    simp [List.takeWhile_cons, List.dropWhile_cons, hd, h2.1, h2.2]

lemma charsVal_append_singleton (l : List Char) (c : Char) :
    charsVal (l ++ [c]) = charsVal l * 10 + (c.toNat - 48) := by
  unfold charsVal
  rw [List.foldl_append]
  rfl

lemma charsVal_reverse_map (L : List Nat) (h : ∀ d ∈ L, d < 10) :
    charsVal (L.reverse.map digitToChar) = Nat.ofDigits 10 L := by
  induction L with
  | nil => rfl
  | cons d L ih =>
    have hd : d < 10 := h d (List.mem_cons_self _ _)
    have h2 := ih (fun e he => h e (List.mem_cons_of_mem _ he))
    rw [List.reverse_cons, List.map_append, List.map_singleton, charsVal_append_singleton, h2,
      digitToChar_toNat hd, Nat.ofDigits_cons]
    omega

lemma charsVal_natChars (n : Nat) : charsVal (natChars n) = n := by
  unfold natChars
  split
  · rename_i h
    subst h
    decide
  · rw [charsVal_reverse_map _ (fun d hd => Nat.digits_lt_base (by norm_num) hd),
      Nat.ofDigits_digits]

lemma isEmpty_false_of_ne_nil {l : List Char} (h : l ≠ []) : l.isEmpty = false := by
  cases l
  · exact absurd rfl h
  · rfl

lemma matchGo_canonical (A B C : List Char)
    (hA : ∀ c ∈ A, isDigitCh c = true) (hA0 : A ≠ [])
    (hB : ∀ c ∈ B, isDigitCh c = true) (hB0 : B ≠ [])
    (hC : ∀ c ∈ C, isDigitCh c = true) (hC0 : C ≠ []) :
    matchGo (A ++ '.' :: (B ++ '.' :: C)) = some ⟨A, B, some C⟩ := by
  have hdot : isDigitCh '.' = false := by decide
  have h1 := takeWhile_append_not isDigitCh A '.' (B ++ '.' :: C) hA hdot
  have h2 := takeWhile_append_not isDigitCh B '.' C hB hdot
  have h3 := takeWhile_all isDigitCh C hC
  simp only [matchGo, matchOptPatch, h1.1, h1.2, h2.1, h2.2, h3.1, h3.2,
    isEmpty_false_of_ne_nil hA0, isEmpty_false_of_ne_nil hB0, isEmpty_false_of_ne_nil hC0,
    Bool.false_eq_true, if_false, if_true, reduceIte]

lemma findMatch_formatChars (v : GoVersion) :
    findMatch (formatChars v) =
      some ⟨natChars v.major, natChars v.minor, some (natChars v.patch)⟩ := by
  have hm := matchGo_canonical (natChars v.major) (natChars v.minor) (natChars v.patch)
    (natChars_digits _) (natChars_ne_nil _) (natChars_digits _) (natChars_ne_nil _)
    (natChars_digits _) (natChars_ne_nil _)
  simp only [formatChars, findMatch, matchAt, hm, reduceIte, and_self]

/-- C7: for every VersionID v = (major, minor, patch) in the `u32`
domain, parsing the canonical textual form `go<major>.<minor>.<patch>`
succeeds and yields exactly v, and the canonical form is injective. -/
theorem C7_parse_format_roundtrip (v w : GoVersion)
    (hv1 : v.major < 4294967296) (hv2 : v.minor < 4294967296) (hv3 : v.patch < 4294967296)
    (hw1 : w.major < 4294967296) (hw2 : w.minor < 4294967296) (hw3 : w.patch < 4294967296) :
    goVersionFromStr (formatChars v) = .ok v ∧
      (formatChars v = formatChars w → v = w) := by
  have hp : ∀ n : Nat, n < 4294967296 → parseU32 (natChars n) = some n := by
    intro n hn
    unfold parseU32
    rw [charsVal_natChars]
    simp [hn]
  have key : ∀ u : GoVersion, u.major < 4294967296 → u.minor < 4294967296 →
      u.patch < 4294967296 → goVersionFromStr (formatChars u) = .ok u := by
    intro u h1 h2 h3
    simp only [goVersionFromStr, findMatch_formatChars, hp u.major h1, hp u.minor h2,
      hp u.patch h3]
  refine ⟨key v hv1 hv2 hv3, fun h => ?_⟩
  have h2 : (ParseResult.ok v) = .ok w := by
    rw [← key v hv1 hv2 hv3, h, key w hw1 hw2 hw3]
  injection h2

/-- C8 evidence: the parser is not total — on the input
`go4294967296.0` the matched major component `4294967296` does not fit
in `u32`, `parse::<u32>().unwrap()` panics, and the process aborts
instead of returning a `ParseError`. -/
theorem C8_parse_panics_on_u32_overflow :
    goVersionFromStr
      ['g', 'o', '4', '2', '9', '4', '9', '6', '7', '2', '9', '6', '.', '0'] = .panic := by
  decide

/-! ## Concrete fixtures used by witnesses and counterexamples -/

def v19 : GoVersion := ⟨1, 19, 0⟩

def v21 : GoVersion := ⟨1, 21, 0⟩

def v22 : GoVersion := ⟨1, 22, 0⟩

/-- A catalog file entry matching the (amd64, linux) platform. -/
def fi21 : FileInfo := ⟨"go1.21.0.linux-amd64.tar.gz", "linux", "amd64", 100, "archive"⟩

/-- A catalog release group list offering exactly go1.21.0 for (amd64, linux). -/
def groups21 : List (GoVersion × List FileInfo) := [(v21, [fi21])]

/-- A release group whose only file matches no platform (a source bundle),
so the platform filter yields an empty mapping. -/
def groupsNoMatch : List (GoVersion × List FileInfo) :=
  [(v22, [⟨"go1.22.0.src.tar.gz", "", "", 50, "source"⟩])]

/-! ## C9: loading the state file -/

/-- C9: `load()` on a non-existent state file returns the zero-value
record rather than an error, while any other read error or a
parse/schema error of the contents is a hard error. -/
theorem C9_load_missing_file (parse : String → Option VersionFile) (s : String) :
    loadVersionFile .notFound parse = .ok ⟨none, ∅, ∅⟩ ∧
    loadVersionFile .otherErr parse = .error .ioErr ∧
    (parse s = none → loadVersionFile (.content s) parse = .error .parseStateFile) ∧
    (∀ vf, parse s = some vf → loadVersionFile (.content s) parse = .ok vf) := by
  refine ⟨rfl, rfl, fun h => ?_, fun vf h => ?_⟩ <;> simp [loadVersionFile, h]

theorem C9_witness :
    loadVersionFile .notFound (fun _ => none) = .ok ⟨none, ∅, ∅⟩ ∧
    loadVersionFile (.content "not json") (fun _ => none) = .error .parseStateFile :=
  ⟨(C9_load_missing_file (fun _ => none) "not json").1,
   (C9_load_missing_file (fun _ => none) "not json").2.2.1 rfl⟩

/-! ## C10: remove is atomic on directory-deletion failure -/

/-- C10: if the recursive deletion of v's install directory fails, the
state record is not rewritten — the persisted record is unchanged (so it
still lists v as installed and keeps its previous enabled value) — and
the record can only have been persisted when the deletion succeeded. -/
theorem C10_remove_atomic_on_error (vf : VersionFile) (v : GoVersion) :
    (removeVersion vf false v).1 = vf ∧
    (∀ rmDirOk : Bool, (removeVersion vf rmDirOk v).2 = .ok () → rmDirOk = true) := by
  constructor
  · by_cases h1 : v ∈ vf.installed <;> by_cases h2 : v ∈ vf.pinned <;>
      simp [removeVersion, h1, h2]
  · intro rmDirOk h
    cases rmDirOk
    · exfalso
      by_cases h1 : v ∈ vf.installed <;> by_cases h2 : v ∈ vf.pinned <;>
        simp [removeVersion, h1, h2] at h
    · rfl

theorem C10_witness :
    (removeVersion ⟨some v21, {v21}, ∅⟩ false v21).1 = ⟨some v21, {v21}, ∅⟩ ∧
    true = true :=
  ⟨(C10_remove_atomic_on_error ⟨some v21, {v21}, ∅⟩ v21).1,
   (C10_remove_atomic_on_error ⟨some v21, {v21}, ∅⟩ v21).2 true (by
     simp [removeVersion, v21])⟩

/-! ## C5: enable is atomic with respect to the state record -/

/-- C5: `enable(v)` for an uninstalled v fails with `NotInstalled` and
leaves the record unchanged; if the symlink step fails the record is
likewise unchanged; the record is rewritten — with `enabled = v` — only
when the symlink step succeeded (and v was installed). -/
theorem C5_enable_atomic (vf : VersionFile) (v : GoVersion) (rmFile : RmFileOutcome)
    (symlinkOk : Bool) :
    (v ∉ vf.installed → enableVersion vf rmFile symlinkOk v = (vf, .error .notInstalled)) ∧
    (symlinkOk = false → (enableVersion vf rmFile symlinkOk v).1 = vf) ∧
    ((enableVersion vf rmFile symlinkOk v).1 = vf ∨
      (symlinkOk = true ∧ v ∈ vf.installed ∧
        (enableVersion vf rmFile symlinkOk v).1 = { vf with enabled := some v } ∧
        (enableVersion vf rmFile symlinkOk v).2 = .ok ())) := by
  refine ⟨fun h => by simp [enableVersion, h], fun h => ?_, ?_⟩
  · by_cases h1 : v ∈ vf.installed
    · cases rmFile <;> simp [enableVersion, h1, h]
    · simp [enableVersion, h1]
  · by_cases h1 : v ∈ vf.installed
    · cases rmFile <;> cases symlinkOk <;> simp [enableVersion, h1]
    · simp [enableVersion, h1]

theorem C5_witness :
    enableVersion ⟨none, ∅, ∅⟩ .ok true v21 = (⟨none, ∅, ∅⟩, .error .notInstalled) ∧
    (enableVersion ⟨none, {v21}, ∅⟩ .ok false v21).1 = ⟨none, {v21}, ∅⟩ :=
  ⟨(C5_enable_atomic ⟨none, ∅, ∅⟩ v21 .ok true).1 (by decide),
   (C5_enable_atomic ⟨none, {v21}, ∅⟩ v21 .ok false).2.1 rfl⟩

/-! ## C6: install is idempotent for an already-installed version -/

/-- C6: a second `install(v)` for a version already present in the
persisted record is not an error, performs no archive download and no
unpack (the only network effect is install's unconditional catalog
resolution), and leaves the persisted record — in particular the
installed set — unchanged. -/
theorem C6_install_idempotent (persisted : VersionFile) (archTag osTag : String)
    (fetch : FetchOutcome) (downloadOk unpackOk : Bool) (v : GoVersion)
    (av : List (GoVersion × FileInfo)) (f : FileInfo)
    (hav : availableGoVersions archTag osTag fetch = .ok av)
    (hf : mapGet av v = some f)
    (hins : v ∈ persisted.installed) :
    install persisted archTag osTag fetch downloadOk unpackOk v
      = (persisted, .ok (), [.catalogFetch]) := by
  have hset : insert v persisted.installed = persisted.installed :=
    Finset.insert_eq_self.mpr hins
  have hrf : ({ persisted with installed := insert v persisted.installed } : VersionFile)
      = persisted := by
    cases persisted
    simp only [hset]
  have hd : downloadVersion persisted downloadOk unpackOk v = (persisted, .ok (), []) := by
    simp [downloadVersion, hins]
  simp [install, hav, hf, hd, hrf]

theorem C6_witness :
    install ⟨some v21, {v21}, ∅⟩ "amd64" "linux" (.success groups21) true true v21
      = (⟨some v21, {v21}, ∅⟩, .ok (), [.catalogFetch]) :=
  C6_install_idempotent ⟨some v21, {v21}, ∅⟩ "amd64" "linux" (.success groups21)
    true true v21 [(v21, fi21)] fi21 rfl rfl (by decide)

/-! ## Lemmas about the clean deletion loop -/

lemma cleanLoop_eq_ok {rmOk : GoVersion → Bool} :
    ∀ {L : List GoVersion} {inst inst2 : Finset GoVersion},
      cleanLoop rmOk L inst = .ok inst2 →
      inst2 = inst \ L.toFinset ∧ ∀ v ∈ L, rmOk v = true := by
  intro L
  induction L with
  | nil =>
    intro inst inst2 h
    simp only [cleanLoop] at h
    injection h with h
    subst h
    simp
  | cons v rest ih =>
    intro inst inst2 h
    simp only [cleanLoop] at h
    by_cases hv : rmOk v = true
    · rw [if_pos hv] at h
      obtain ⟨h1, h2⟩ := ih h
      refine ⟨?_, ?_⟩
      · rw [h1]
        ext x
        simp only [Finset.mem_sdiff, Finset.mem_erase, List.toFinset_cons, Finset.mem_insert]
        tauto
      · intro w hw
        rcases List.mem_cons.1 hw with rfl | hw2
        · exact hv
        · exact h2 w hw2
    · rw [if_neg hv] at h
      cases h

lemma cleanLoop_all_ok {rmOk : GoVersion → Bool} (L : List GoVersion)
    (h : ∀ v ∈ L, rmOk v = true) :
    ∀ inst : Finset GoVersion, cleanLoop rmOk L inst = .ok (inst \ L.toFinset) := by
  induction L with
  | nil =>
    intro inst
    simp [cleanLoop]
  | cons v rest ih =>
    intro inst
    have hv : rmOk v = true := h v (List.mem_cons_self _ _)
    have h2 : ∀ w ∈ rest, rmOk w = true := fun w hw => h w (List.mem_cons_of_mem _ hw)
    simp only [cleanLoop, if_pos hv, ih h2 (inst.erase v)]
    congr 1
    ext x
    simp only [Finset.mem_sdiff, Finset.mem_erase, List.toFinset_cons, Finset.mem_insert]
    tauto

/-- The success path of `clean`, characterised exactly: the allow-list
is `cleanAllowlist`, the deleted directories are the on-disk folders
outside it, and the persisted record keeps `enabled`, shrinks
`installed` to the disk-corrected set minus the deletions, and keeps the
disk-corrected pins. -/
lemma clean_ok (vf : VersionFile) (folders : Finset GoVersion) (archTag osTag : String)
    (fetch : FetchOutcome) (rmOk : GoVersion → Bool)
    (av : List (GoVersion × FileInfo))
    (hav : availableGoVersions archTag osTag fetch = .ok av)
    (hrm : ∀ w ∈ folders \ cleanAllowlist vf folders ((av.map Prod.fst).toFinset),
      rmOk w = true) :
    clean vf folders archTag osTag fetch rmOk =
      (⟨vf.enabled,
        (vf.installed ∩ folders) \
          (folders \ cleanAllowlist vf folders ((av.map Prod.fst).toFinset)),
        (vf.installed ∩ folders) ∩ vf.pinned⟩,
       .ok ((folders \ cleanAllowlist vf folders ((av.map Prod.fst).toFinset)).sort vle)) := by
  have hall : ∀ v ∈ (folders \ cleanAllowlist vf folders ((av.map Prod.fst).toFinset)).sort vle,
      rmOk v = true := by
    intro v hv
    exact hrm v ((Finset.mem_sort vle).1 hv)
  have hloop := cleanLoop_all_ok _ hall (vf.installed ∩ folders)
  rw [Finset.sort_toFinset] at hloop
  simp only [clean, hav, hloop]

/-! ## C2: functional correctness of clean -/

/-- C2: given the on-disk folder set and a successful catalog query,
clean deletes exactly the on-disk version directories outside the
allow-list (available ∪ disk-corrected pinned ∪ enabled), removes them
from `installed` (which it first corrected to the on-disk set), leaves
allow-listed directories untouched, and never adds a version to
`installed`. -/
theorem C2_clean_functional (vf : VersionFile) (folders : Finset GoVersion)
    (archTag osTag : String) (fetch : FetchOutcome) (rmOk : GoVersion → Bool)
    (av : List (GoVersion × FileInfo))
    (hav : availableGoVersions archTag osTag fetch = .ok av)
    (hrm : ∀ w ∈ folders \ cleanAllowlist vf folders ((av.map Prod.fst).toFinset),
      rmOk w = true) :
    clean vf folders archTag osTag fetch rmOk =
      (⟨vf.enabled,
        (vf.installed ∩ folders) \
          (folders \ cleanAllowlist vf folders ((av.map Prod.fst).toFinset)),
        (vf.installed ∩ folders) ∩ vf.pinned⟩,
       .ok ((folders \ cleanAllowlist vf folders ((av.map Prod.fst).toFinset)).sort vle)) ∧
    ((folders \ cleanAllowlist vf folders ((av.map Prod.fst).toFinset)).sort vle).toFinset
      = folders \ cleanAllowlist vf folders ((av.map Prod.fst).toFinset) ∧
    (∀ w ∈ (folders \ cleanAllowlist vf folders ((av.map Prod.fst).toFinset)).sort vle,
      w ∉ cleanAllowlist vf folders ((av.map Prod.fst).toFinset)) ∧
    (clean vf folders archTag osTag fetch rmOk).1.installed ⊆ vf.installed := by
  have hmain := clean_ok vf folders archTag osTag fetch rmOk av hav hrm
  refine ⟨hmain, Finset.sort_toFinset _ _, ?_, ?_⟩
  · intro w hw
    have := (Finset.mem_sort vle).1 hw
    exact (Finset.mem_sdiff.1 this).2
  · rw [hmain]
    intro w hw
    simp only [Finset.mem_sdiff, Finset.mem_inter] at hw
    exact hw.1.1

theorem C2_witness :
    (clean ⟨some v21, {v19, v21}, ∅⟩ {v19, v21} "amd64" "linux" (.success groups21)
      (fun _ => true)).1 = ⟨some v21, {v21}, ∅⟩ := by
  have h := C2_clean_functional ⟨some v21, {v19, v21}, ∅⟩ {v19, v21} "amd64" "linux"
    (.success groups21) (fun _ => true) [(v21, fi21)] rfl (fun w _ => rfl)
  rw [h.1]
  refine congrArg₂ (fun a b => VersionFile.mk (some v21) a b) ?_ ?_ <;> decide

/-! ## C1: the enabled-slot invariant under mutation -/

/-- C1 counterexample: starting from a record satisfying the enabled
invariant (go1.21.0 enabled and installed), running clean when the
enabled version's directory has been externally removed (folder set ∅)
— with the catalog reachable — persists a record whose `enabled` slot
still names go1.21.0 while `installed` is empty: clean does not clear
(or protect) an enabled version whose directory vanished, so the
invariant is not preserved by every mutating operation. -/
theorem C1_counterexample :
    enabledInv ⟨some v21, {v21}, ∅⟩ ∧
    (clean ⟨some v21, {v21}, ∅⟩ ∅ "amd64" "linux" (.success groups21) (fun _ => true)).1
      = ⟨some v21, ∅, ∅⟩ ∧
    ¬ enabledInv ⟨some v21, ∅, ∅⟩ := by
  refine ⟨?_, ?_, ?_⟩
  · intro u hu
    injection hu with hu
    subst hu
    decide
  · have h := clean_ok ⟨some v21, {v21}, ∅⟩ ∅ "amd64" "linux" (.success groups21)
      (fun _ => true) [(v21, fi21)] rfl (fun w _ => rfl)
    rw [h]
    refine congrArg₂ (fun a b => VersionFile.mk (some v21) a b) ?_ ?_ <;> decide
  · intro h
    have := h v21 rfl
    simp at this

/-- C1 amended: the enabled invariant is preserved by remove (which
clears `enabled` rather than failing when the enabled version is
removed), enable, pin, unpin, and install unconditionally; clean
preserves it provided the enabled version's directory (if any) is still
present on disk — when it has been externally removed, clean can
persist a violating record (see the counterexample). -/
theorem C1_enabled_invariant_amended (vf : VersionFile) (v : GoVersion)
    (rmDirOk : Bool) (rmFile : RmFileOutcome) (symlinkOk : Bool)
    (archTag osTag : String) (fetch : FetchOutcome) (downloadOk unpackOk : Bool)
    (folders : Finset GoVersion) (rmOk : GoVersion → Bool)
    (hinv : enabledInv vf) :
    enabledInv (removeVersion vf rmDirOk v).1 ∧
    (vf.enabled = some v → v ∉ vf.pinned → rmDirOk = true →
      (removeVersion vf rmDirOk v).2 = .ok () ∧
      (removeVersion vf rmDirOk v).1.enabled = none) ∧
    enabledInv (enableVersion vf rmFile symlinkOk v).1 ∧
    enabledInv (pin vf v).1 ∧
    enabledInv (unpin vf v).1 ∧
    enabledInv (install vf archTag osTag fetch downloadOk unpackOk v).1 ∧
    ((∀ e, vf.enabled = some e → e ∈ folders) →
      enabledInv (clean vf folders archTag osTag fetch rmOk).1) := by
  refine ⟨?_, ?_, ?_, ?_, ?_, ?_, ?_⟩
  · -- removeVersion preserves the invariant
    by_cases h1 : v ∈ vf.installed
    · by_cases h2 : v ∈ vf.pinned
      · simpa [removeVersion, h1, h2] using hinv
      · cases rmDirOk
        · simpa [removeVersion, h1, h2] using hinv
        · intro u hu
          simp only [removeVersion, h1, h2, if_pos, if_neg, not_false_iff, if_true] at hu ⊢
          by_cases he : vf.enabled = some v
          · simp [he] at hu
          · simp only [he, if_neg, if_false] at hu
            have hne : u ≠ v := by
              intro huv
              subst huv
              exact he hu
            simp [removeVersion, h1, h2]
            exact ⟨hne, hinv u hu⟩
    · simpa [removeVersion, h1] using hinv
  · -- removing the enabled version clears the enabled slot
    intro he h2 hrm
    subst hrm
    have h1 : v ∈ vf.installed := hinv v he
    constructor
    · simp [removeVersion, h1, h2]
    · simp [removeVersion, h1, h2, he]
  · -- enableVersion preserves the invariant
    by_cases h1 : v ∈ vf.installed
    · cases rmFile <;> cases symlinkOk <;>
        simp only [enableVersion, h1, if_pos, if_true, Bool.false_eq_true, if_false] <;>
        first
          | exact hinv
          | (intro u hu
             injection hu with hu
             subst hu
             exact h1)
    · simpa [enableVersion, h1] using hinv
  · -- pin preserves the invariant
    by_cases h1 : v ∈ vf.installed <;> simpa [pin, h1] using hinv
  · -- unpin preserves the invariant
    simpa [unpin] using hinv
  · -- install preserves the invariant
    have hgrow : ∀ u, vf.enabled = some u →
        u ∈ insert v vf.installed := fun u hu => Finset.mem_insert_of_mem (hinv u hu)
    cases hav : availableGoVersions archTag osTag fetch with
    | error e => simpa [install, hav] using hinv
    | ok av =>
      cases hmg : mapGet av v with
      | none => simpa [install, hav, hmg] using hinv
      | some f =>
        by_cases hv : v ∈ vf.installed
        · simpa [install, hav, hmg, downloadVersion, hv] using hinv
        · cases downloadOk <;> cases unpackOk <;>
            simp only [install, hav, hmg, downloadVersion, hv, if_pos, if_neg,
              Bool.false_eq_true, if_true, if_false, not_false_iff] <;>
            first
              | exact hinv
              | exact hgrow
  · -- clean preserves the invariant when the enabled folder is on disk
    intro hfold
    cases hav : availableGoVersions archTag osTag fetch with
    | error e => simpa [clean, hav] using hinv
    | ok av =>
      cases hloop : cleanLoop rmOk
          ((folders \ cleanAllowlist vf folders ((av.map Prod.fst).toFinset)).sort vle)
          (vf.installed ∩ folders) with
      | error e => simpa [clean, hav, hloop] using hinv
      | ok inst2 =>
        obtain ⟨h1, _⟩ := cleanLoop_eq_ok hloop
        rw [Finset.sort_toFinset] at h1
        intro u hu
        simp only [clean, hav, hloop] at hu ⊢
        have hmem : u ∈ vf.installed := hinv u hu
        have hdisk : u ∈ folders := hfold u hu
        have hallow : u ∈ cleanAllowlist vf folders ((av.map Prod.fst).toFinset) := by
          simp only [cleanAllowlist, Finset.mem_union]
          right
          simp [hu]
        rw [h1]
        simp only [Finset.mem_sdiff, Finset.mem_inter]
        exact ⟨⟨hmem, hdisk⟩, fun hcontra => hcontra.2 hallow⟩

theorem C1_witness :
    (removeVersion ⟨some v21, {v21}, ∅⟩ true v21).2 = .ok () ∧
    (removeVersion ⟨some v21, {v21}, ∅⟩ true v21).1.enabled = none ∧
    enabledInv (clean ⟨some v21, {v21}, ∅⟩ {v21} "amd64" "linux" (.success groups21)
      (fun _ => true)).1 := by
  have hinv : enabledInv ⟨some v21, {v21}, ∅⟩ := by
    intro u hu
    injection hu with hu
    subst hu
    decide
  have h := C1_enabled_invariant_amended ⟨some v21, {v21}, ∅⟩ v21 true .ok true
    "amd64" "linux" (.success groups21) true true {v21} (fun _ => true) hinv
  have hrem := h.2.1 rfl (by decide) rfl
  refine ⟨hrem.1, hrem.2, h.2.2.2.2.2.2 ?_⟩
  intro e he
  injection he with he
  subst he
  decide

/-! ## C4: the pinned-subset invariant under mutation -/

/-- C4: `pinned ⊆ installed` is preserved by every mutating operation;
pin of an uninstalled version fails with NotInstalled; remove of a
pinned version fails with Pinned (under the invariant, a pinned version
is installed) and succeeds immediately after unpin; clean drops any pin
on a no-longer-installed version (its persisted pins stay inside its
persisted installed set). -/
theorem C4_pinned_invariant (vf : VersionFile) (v : GoVersion)
    (rmDirOk : Bool) (rmFile : RmFileOutcome) (symlinkOk : Bool)
    (archTag osTag : String) (fetch : FetchOutcome) (downloadOk unpackOk : Bool)
    (folders : Finset GoVersion) (rmOk : GoVersion → Bool)
    (hinv : pinnedInv vf) :
    pinnedInv (removeVersion vf rmDirOk v).1 ∧
    pinnedInv (enableVersion vf rmFile symlinkOk v).1 ∧
    pinnedInv (pin vf v).1 ∧
    pinnedInv (unpin vf v).1 ∧
    pinnedInv (install vf archTag osTag fetch downloadOk unpackOk v).1 ∧
    pinnedInv (clean vf folders archTag osTag fetch rmOk).1 ∧
    (v ∉ vf.installed → (pin vf v).2 = .error .notInstalled) ∧
    (v ∈ vf.pinned → (removeVersion vf rmDirOk v).2 = .error .pinned) ∧
    (v ∈ vf.installed → rmDirOk = true →
      (removeVersion (unpin vf v).1 rmDirOk v).2 = .ok ()) := by
  refine ⟨?_, ?_, ?_, ?_, ?_, ?_, ?_, ?_, ?_⟩
  · -- removeVersion preserves pinned ⊆ installed
    by_cases h1 : v ∈ vf.installed
    · by_cases h2 : v ∈ vf.pinned
      · simpa [removeVersion, h1, h2] using hinv
      · cases rmDirOk
        · simpa [removeVersion, h1, h2] using hinv
        · have hrec : (removeVersion vf true v).1 =
              ⟨if vf.enabled = some v then none else vf.enabled,
               vf.installed.erase v, vf.pinned⟩ := by
            simp [removeVersion, h1, h2]
          rw [hrec]
          intro u hu
          exact Finset.mem_erase.2 ⟨fun huv => h2 (huv ▸ hu), hinv hu⟩
    · simpa [removeVersion, h1] using hinv
  · -- enableVersion preserves pinned ⊆ installed
    by_cases h1 : v ∈ vf.installed
    · cases rmFile <;> cases symlinkOk <;>
        simpa [enableVersion, h1] using hinv
    · simpa [enableVersion, h1] using hinv
  · -- pin preserves pinned ⊆ installed
    by_cases h1 : v ∈ vf.installed
    · simp only [pin, h1, if_pos, if_true]
      exact Finset.insert_subset h1 hinv
    · simpa [pin, h1] using hinv
  · -- unpin preserves pinned ⊆ installed
    simp only [unpin]
    exact (Finset.erase_subset _ _).trans hinv
  · -- install preserves pinned ⊆ installed
    have hgrow : vf.pinned ⊆ insert v vf.installed :=
      hinv.trans (Finset.subset_insert _ _)
    cases hav : availableGoVersions archTag osTag fetch with
    | error e => simpa [install, hav] using hinv
    | ok av =>
      cases hmg : mapGet av v with
      | none => simpa [install, hav, hmg] using hinv
      | some f =>
        by_cases hv : v ∈ vf.installed
        · simpa [install, hav, hmg, downloadVersion, hv] using hinv
        · cases downloadOk <;> cases unpackOk <;>
            simp only [install, hav, hmg, downloadVersion, hv, if_pos, if_neg,
              Bool.false_eq_true, if_true, if_false, not_false_iff] <;>
            first
              | exact hinv
              | exact hgrow
  · -- clean preserves pinned ⊆ installed
    cases hav : availableGoVersions archTag osTag fetch with
    | error e => simpa [clean, hav] using hinv
    | ok av =>
      cases hloop : cleanLoop rmOk
          ((folders \ cleanAllowlist vf folders ((av.map Prod.fst).toFinset)).sort vle)
          (vf.installed ∩ folders) with
      | error e => simpa [clean, hav, hloop] using hinv
      | ok inst2 =>
        obtain ⟨h1, _⟩ := cleanLoop_eq_ok hloop
        rw [Finset.sort_toFinset] at h1
        simp only [clean, hav, hloop]
        intro u hu
        have hu1 : u ∈ vf.installed ∩ folders := (Finset.mem_inter.1 hu).1
        have hallow : u ∈ cleanAllowlist vf folders ((av.map Prod.fst).toFinset) := by
          simp only [cleanAllowlist, Finset.mem_union]
          left
          right
          exact hu
        rw [h1]
        exact Finset.mem_sdiff.2
          ⟨hu1, fun hcontra => (Finset.mem_sdiff.1 hcontra).2 hallow⟩
  · -- pin of an uninstalled version fails
    intro h1
    simp [pin, h1]
  · -- remove of a pinned version fails with Pinned
    intro hp
    have h1 : v ∈ vf.installed := hinv hp
    simp [removeVersion, h1, hp]
  · -- remove succeeds immediately after unpin
    intro h1 hrm
    subst hrm
    have hp : v ∉ (vf.pinned.erase v) := Finset.not_mem_erase _ _
    simp [unpin, removeVersion, h1, hp]

theorem C4_witness :
    pinnedInv (pin ⟨none, {v21}, ∅⟩ v21).1 ∧
    (pin ⟨none, ∅, ∅⟩ v21).2 = .error .notInstalled ∧
    (removeVersion ⟨none, {v21}, {v21}⟩ true v21).2 = .error .pinned ∧
    (removeVersion (unpin ⟨none, {v21}, {v21}⟩ v21).1 true v21).2 = .ok () := by
  have ha := C4_pinned_invariant ⟨none, {v21}, ∅⟩ v21 true .ok true "amd64" "linux"
    (.success groups21) true true ∅ (fun _ => true) (Finset.empty_subset _)
  have hb := C4_pinned_invariant ⟨none, ∅, ∅⟩ v21 true .ok true "amd64" "linux"
    (.success groups21) true true ∅ (fun _ => true) (Finset.empty_subset _)
  have hc := C4_pinned_invariant ⟨none, {v21}, {v21}⟩ v21 true .ok true "amd64" "linux"
    (.success groups21) true true ∅ (fun _ => true) (Finset.Subset.refl _)
  exact ⟨ha.2.2.1, hb.2.2.2.2.2.2.1 (by decide), hc.2.2.2.2.2.2.2.1 (by decide),
    hc.2.2.2.2.2.2.2.2 (by decide) rfl⟩

/-! ## C3: empty platform mapping — update vs list -/

/-- C3 counterexample: when the catalog fetch succeeds but the platform
filter yields an empty mapping, `list` does **not** tolerate the empty
result: the emptiness check sits inside `available_go_versions` itself
and `list_versions` propagates its error with `?`, so list fails
instead of showing the installed versions. -/
theorem C3_counterexample :
    listVersions ⟨some v21, {v21}, ∅⟩ "amd64" "linux" (.success groupsNoMatch)
      = .error .catalogEmpty := by
  rfl

/-- C3 amended: when the catalog fetch succeeds but yields an empty
mapping for the current platform, *both* update and list fail with the
same hard error, because the emptiness check is made inside the shared
catalog-query helper. -/
theorem C3_empty_catalog_fatal_for_both (vf : VersionFile) (archTag osTag : String)
    (groups : List (GoVersion × List FileInfo)) (downloadOk unpackOk : Bool)
    (rmFile : RmFileOutcome) (symlinkOk : Bool)
    (hempty : groups.filterMap
      (fun g => (findPlatformFile archTag osTag g.2).map (fun f => (g.1, f))) = []) :
    (update vf archTag osTag (.success groups) downloadOk unpackOk rmFile symlinkOk).2
      = .error .catalogEmpty ∧
    listVersions vf archTag osTag (.success groups) = .error .catalogEmpty := by
  have hav : availableGoVersions archTag osTag (.success groups) = .error .catalogEmpty := by
    simp [availableGoVersions, hempty]
  exact ⟨by simp [update, hav], by simp [listVersions, hav]⟩

theorem C3_witness :
    (update ⟨none, ∅, ∅⟩ "amd64" "linux" (.success groupsNoMatch) true true .ok true).2
      = .error .catalogEmpty ∧
    listVersions ⟨none, ∅, ∅⟩ "amd64" "linux" (.success groupsNoMatch)
      = .error .catalogEmpty :=
  C3_empty_catalog_fatal_for_both ⟨none, ∅, ∅⟩ "amd64" "linux" groupsNoMatch
    true true .ok true rfl

theorem C7_witness :
    goVersionFromStr (formatChars ⟨1, 21, 3⟩) = .ok ⟨1, 21, 3⟩ ∧
    (formatChars ⟨1, 21, 3⟩ = formatChars ⟨1, 21, 3⟩ → (⟨1, 21, 3⟩ : GoVersion) = ⟨1, 21, 3⟩) :=
  C7_parse_format_roundtrip ⟨1, 21, 3⟩ ⟨1, 21, 3⟩ (by decide) (by decide) (by decide)
    (by decide) (by decide) (by decide)
